import Mathlib

/-!
The orchestrator of teamcity-go-test, `main.go`.

A shallow embedding of `main.go`: flag validation, the standard-input read
loop, `runTest`, `runWorker`, and the coordinator's receive loop, the last
three as a transition system over the three unbuffered channels
(`testQueue`, `messages`, `completed`).

Go strings are modelled by `String`, machine integers by `Nat`/`Int` (no
arithmetic in the program can overflow: the only counter is bounded by the
length of a slice).  `TeamCityTest` and its methods live in another file of
the package; they are taken as parameters (`TestOps`).
-/

namespace TeamcityGoTest

/-! ## Library functions used by `main.go` -/

/-- Go `unicode.IsSpace`: the Unicode White_Space property. -/
def isSpace (c : Char) : Bool :=
  let n := c.toNat
  (0x09 ≤ n && n ≤ 0x0D) || n == 0x20 || n == 0x85 || n == 0xA0 || n == 0x1680 ||
    (0x2000 ≤ n && n ≤ 0x200A) || n == 0x2028 || n == 0x2029 || n == 0x202F ||
    n == 0x205F || n == 0x3000

/-- Leading and trailing white space removed, on the characters of a string. -/
def trimChars (l : List Char) : List Char :=
  (l.dropWhile isSpace).rdropWhile isSpace

/-- Go `strings.TrimSpace`. -/
def TrimSpace (s : String) : String :=
  ⟨trimChars s.data⟩

/-- The error value of a read: `io.EOF`, or any other error with its text. -/
inductive ReadError where
  | EOF
  | other (text : String)
  deriving DecidableEq, Repr

/-- Go `err.Error()` for a read error. -/
def ReadError.Error : ReadError → String
  | .EOF => "EOF"
  | .other text => text

/-- Standard input: the bytes that can be read, and the error the reader
reports once they are exhausted (`io.EOF` at a regular end of stream). -/
structure Stdin where
  data : List Char
  failure : ReadError
  deriving DecidableEq, Repr

/-- Go `(*bufio.Reader).ReadString(delim)` on the unread input: the data up to
and including the first delimiter, the input left, and no error; or, when the
input ends first, the data read before the end and the reader's error. -/
def ReadString (delim : Char) (failure : ReadError) :
    List Char → String × List Char × Option ReadError
  | [] => ("", [], some failure)
  | c :: cs =>
    if c = delim then (⟨[c]⟩, cs, none)
    else
      let r := ReadString delim failure cs
      (⟨c :: r.1.data⟩, r.2.1, r.2.2)

/-! ## `main`, lines 23-58: flags and the read loop -/

/-- The three command-line flags of `main` (lines 24-26). -/
structure Flags where
  testBinary : String
  parallelism : Int
  timeout : String
  deriving DecidableEq, Repr

/-- The text of `usage()` (lines 15-21). -/
def usage : String :=
  "Usage:\n\tteamcity-go-test -test <binary> [-parallelism n] [-timeout t]\n\n\tTest names must be listed one per line on stdin.\n"

/-- An `os.Exit` taken by `main`: the status, what was written to standard
error before it, and how many `ReadString` calls had been made. -/
structure Exit where
  status : Nat
  stderr : String
  reads : Nat
  deriving DecidableEq, Repr

/-- The read loop of `main` (lines 42-58).  `testNames` and `reads` are the
slice built and the number of `ReadString` calls made so far; `fuel` bounds
the number of iterations, and `none` means it ran out. -/
def readLoop (failure : ReadError) :
    Nat → List Char → List String → Nat → Option (Except Exit (List String))
  | 0, _, _, _ => none
  | fuel + 1, input, testNames, reads =>
    let r := ReadString '\n' failure input
    let line := r.1
    match r.2.2 with
    | some err =>
      if err = ReadError.EOF then
        if TrimSpace line ≠ "" then some (.ok (testNames ++ [line]))
        else some (.ok testNames)
      else
        some (.error ⟨1, "error reading stdin: " ++ err.Error, reads + 1⟩)
    | none =>
      if TrimSpace line ≠ "" then readLoop failure fuel r.2.1 (testNames ++ [line]) (reads + 1)
      else readLoop failure fuel r.2.1 testNames (reads + 1)

/-- Lines 39-58 of `main`: `testNames` as read from standard input, or the
exit taken on a read error.  Every iteration consumes at least one character
or ends the loop, so `length + 1` iterations are enough (`readNames_total`). -/
def readNames (stdin : Stdin) : Option (Except Exit (List String)) :=
  readLoop stdin.failure (stdin.data.length + 1) stdin.data [] 0

/-- Lines 23-58 of `main`: the two checks of the `-test` flag, then the read
loop.  `stat path` tells whether `os.Stat(path)` returns without error. -/
def startup (stat : String → Bool) (flags : Flags) (stdin : Stdin) :
    Option (Except Exit (List String)) :=
  if flags.testBinary = "" then
    some (.error ⟨1, usage, 0⟩)
  else if stat flags.testBinary = false then
    some (.error ⟨1, "Cannot find binary: " ++ flags.testBinary ++ "\n", 0⟩)
  else
    readNames stdin

/-- The names the feeder goroutine sends on `testQueue` (lines 68-72), in
order: each element of `testNames`, trimmed. -/
def queued (testNames : List String) : List String :=
  testNames.map TrimSpace

/-- The names as the specification words them: the input split into lines
at the newline character (a last line without a newline included), each line
trimmed, the lines that are empty after trimming removed. -/
def specNames (input : List Char) : List String :=
  ((input.splitOn '\n').map fun l => TrimSpace ⟨l⟩).filter fun name => name ≠ ""

/-- The text made of the given lines, each followed by a newline. -/
def unlines : List (List Char) → List Char
  | [] => []
  | l :: ls => l ++ '\n' :: unlines ls

/-! ## `TeamCityTest` and `runTest` (lines 102-125) -/

/-- A `TeamCityTest`: the two fields `main.go` touches, and the remaining
fields of the record, which only its own methods read or write. -/
structure TeamCityTest (R : Type) where
  Name : String
  Started : Nat
  Rest : R

/-- The constructor and the two methods of `TeamCityTest` that `main.go`
calls; they are defined in another file of the package. -/
structure TestOps (R : Type) where
  NewTeamCityTest : String → TeamCityTest R
  ParseTestRunnerOutput : TeamCityTest R → String → String → TeamCityTest R
  FormatTestOutput : TeamCityTest R → String

/-- The call `exec.Command(name, arg...)`. -/
structure Command where
  name : String
  arg : List String
  deriving DecidableEq, Repr

/-- What `cmd.Run()` leaves behind: the two captured buffers and its error
value (`none` for a zero exit status). -/
structure RunOutcome where
  out : String
  errOut : String
  err : Option String
  deriving DecidableEq, Repr

/-- The function `runTest` (lines 102-125).  `now` is the value of
`time.Now()`, `cmdRun` the behaviour of the operating system on the command
that is run.  Returns the command that was run and the test as mutated. -/
def runTest {R : Type} (ops : TestOps R) (test : TeamCityTest R)
    (binaryName timeout : String) (now : Nat) (cmdRun : Command → RunOutcome) :
    Command × TeamCityTest R :=
  let test := { test with Started := now }
  let args := ["-test.v", "-test.run", "^" ++ test.Name ++ "$"]
  let args := if timeout ≠ "" then (args ++ ["-test.timeout"]) ++ [timeout] else args
  let cmd : Command := ⟨binaryName, args⟩
  let r := cmdRun cmd
  (cmd, ops.ParseTestRunnerOutput test r.out r.errOut)

/-! ## The pool: `main` lines 60-86 and `runWorker` (lines 89-100) -/

/-- Where a `runWorker` goroutine stands. -/
inductive Worker (R : Type) where
  /-- Blocked at `testName := <-inputQueue` (line 92). -/
  | recv
  /-- Line 95: `test` was built by `NewTeamCityTest`, `runTest` is to run. -/
  | running (testName : String) (test : TeamCityTest R)
  /-- Blocked at `messages <- test.FormatTestOutput()` (line 96). -/
  | sendMessage (testName : String) (test : TeamCityTest R)
  /-- Blocked at `done <- struct{}{}` (line 97). -/
  | sendDone (testName : String) (test : TeamCityTest R)

/-- The coordinator, lines 74-86 of `main`. -/
structure Coordinator where
  resultsCount : Nat
  stdout : String
  /-- The receive loop was left at line 84 and `main` returned. -/
  exited : Bool
  deriving DecidableEq, Repr

/-- What one `select` of the coordinator receives (lines 76-81). -/
inductive Received where
  | message (message : String)
  | completed
  deriving DecidableEq, Repr

/-- One iteration of the receive loop, lines 76-85: the `select` case taken,
then the test `resultsCount == len(testNames)`. -/
def Coordinator.receive (n : Nat) (c : Coordinator) : Received → Coordinator
  | .message message =>
    let c := { c with stdout := c.stdout ++ message }
    { c with exited := c.resultsCount == n }
  | .completed =>
    let c := { c with resultsCount := c.resultsCount + 1 }
    { c with exited := c.resultsCount == n }

/-- What the pool is run with. -/
structure Config (R : Type) where
  ops : TestOps R
  testNames : List String
  parallelism : Int
  binaryName : String
  timeout : String

/-- The state of the pool: the index of the feeder goroutine in `testNames`
(lines 68-72), the workers, the coordinator. -/
structure State (R : Type) where
  next : Nat
  workers : List (Worker R)
  coord : Coordinator

/-- Line 60-74: the channels are made, `parallelism` workers and the feeder
are started, `resultsCount` is 0.  The loop of line 64 starts no worker when
`parallelism ≤ 0`. -/
def init {R : Type} (cfg : Config R) : State R :=
  ⟨0, List.replicate cfg.parallelism.toNat Worker.recv, ⟨0, "", false⟩⟩

/-- The moves of the pool; the scheduler and the operating system choose. -/
inductive Action where
  /-- The feeder's send on `testQueue` meets the receive of worker `w`. -/
  | dequeue (w : Nat)
  /-- The call of `runTest` by worker `w` returns. -/
  | finish (w : Nat) (now : Nat) (cmdRun : Command → RunOutcome)
  /-- The send of worker `w` on `messages` meets the coordinator's `select`. -/
  | message (w : Nat)
  /-- The send of worker `w` on `done` meets the coordinator's `select`. -/
  | completed (w : Nat)

/-- What a move lets be observed. -/
inductive Obs where
  /-- Worker `w` received the name at index `pos` of `testNames`. -/
  | dequeued (w : Nat) (pos : Nat) (name : String)
  /-- Worker `w` ran `cmd` for `name`. -/
  | ran (w : Nat) (name : String) (cmd : Command)
  /-- The coordinator printed `text`, the block worker `w` built for `name`. -/
  | printed (w : Nat) (name : String) (text : String)
  /-- The coordinator counted a completion sent by worker `w`. -/
  | counted (w : Nat)
  deriving DecidableEq, Repr

/-- One move.  Channels are unbuffered, so a send and its receive are one
move; once `main` has returned the process is gone and nothing moves. -/
def step {R : Type} (cfg : Config R) (s : State R) : Action → Option (Obs × State R)
  | .dequeue w =>
    if s.coord.exited then none
    else
      match cfg.testNames[s.next]?, s.workers[w]? with
      | some testName, some .recv =>
        let name := TrimSpace testName
        some (.dequeued w s.next name,
          { s with next := s.next + 1,
                   workers := s.workers.set w (.running name (cfg.ops.NewTeamCityTest name)) })
      | _, _ => none
  | .finish w now cmdRun =>
    if s.coord.exited then none
    else
      match s.workers[w]? with
      | some (.running testName test) =>
        let r := runTest cfg.ops test cfg.binaryName cfg.timeout now cmdRun
        some (.ran w testName r.1, { s with workers := s.workers.set w (.sendMessage testName r.2) })
      | _ => none
  | .message w =>
    if s.coord.exited then none
    else
      match s.workers[w]? with
      | some (.sendMessage testName test) =>
        let message := cfg.ops.FormatTestOutput test
        some (.printed w testName message,
          { s with workers := s.workers.set w (.sendDone testName test),
                   coord := s.coord.receive cfg.testNames.length (.message message) })
      | _ => none
  | .completed w =>
    if s.coord.exited then none
    else
      match s.workers[w]? with
      | some (.sendDone _ _) =>
        some (.counted w,
          { s with workers := s.workers.set w .recv,
                   coord := s.coord.receive cfg.testNames.length .completed })
      | _ => none

/-- Lines 23-72 of `main`: the pool is only made once the flags were checked
and standard input was read; the workers are given `*testBinary` and
`*timeout` (line 65). -/
def poolConfig {R : Type} (ops : TestOps R) (stat : String → Bool) (flags : Flags)
    (stdin : Stdin) : Option (Except Exit (Config R)) :=
  match startup stat flags stdin with
  | none => none
  | some (.error e) => some (.error e)
  | some (.ok testNames) =>
    some (.ok ⟨ops, testNames, flags.parallelism, flags.testBinary, flags.timeout⟩)

/-- A sequence of moves from `s`: what was observed, and the state reached;
`none` when one of the moves is not enabled. -/
def run {R : Type} (cfg : Config R) : State R → List Action → Option (List Obs × State R)
  | s, [] => some ([], s)
  | s, a :: as =>
    match step cfg s a with
    | none => none
    | some (o, s1) =>
      match run cfg s1 as with
      | none => none
      | some (os, s2) => some (o :: os, s2)

/-- The state `s` is reached from the start of the pool, `os` having been
observed on the way. -/
def Reachable {R : Type} (cfg : Config R) (os : List Obs) (s : State R) : Prop :=
  ∃ as : List Action, run cfg (init cfg) as = some (os, s)

/-- The positions of `testNames` dequeued, in order of observation. -/
def dequeuedPos (os : List Obs) : List Nat :=
  os.filterMap fun o => match o with
    | .dequeued _ pos _ => some pos
    | _ => none

/-- The names whose blocks were printed, in order of observation. -/
def printedNames (os : List Obs) : List String :=
  os.filterMap fun o => match o with
    | .printed _ name _ => some name
    | _ => none

/-- The blocks printed, in order of observation. -/
def printedTexts (os : List Obs) : List String :=
  os.filterMap fun o => match o with
    | .printed _ _ text => some text
    | _ => none

/-- The completions the coordinator counted: the workers that sent them. -/
def countedBy (os : List Obs) : List Nat :=
  os.filterMap fun o => match o with
    | .counted w => some w
    | _ => none

/-- The concatenation of a list of strings, in order. -/
def concat : List String → String
  | [] => ""
  | s :: ss => s ++ concat ss

/-! ## A small instance, for the worked examples -/

/-- A test record with no further fields, formatted as its name in angle
brackets. -/
def demoOps : TestOps Unit :=
  ⟨fun name => ⟨name, 0, ()⟩, fun test _ _ => test, fun test => "<" ++ test.Name ++ ">"⟩

/-- Two names read from standard input, two workers, no timeout. -/
def demoConfig : Config Unit :=
  ⟨demoOps, ["A\n", " B"], 2, "bin", ""⟩

/-- A subprocess that prints nothing and exits with a non-zero status. -/
def demoFail : Command → RunOutcome :=
  fun _ => ⟨"", "", some "exit status 1"⟩

/-- A full schedule of `demoConfig`: the second name finishes first. -/
def demoSchedule : List Action :=
  [.dequeue 0, .dequeue 1, .finish 1 5 demoFail, .message 1, .completed 1,
    .finish 0 7 demoFail, .message 0, .completed 0]

/-- What `demoSchedule` lets be observed. -/
def demoObs : List Obs :=
  [.dequeued 0 0 "A", .dequeued 1 1 "B",
    .ran 1 "B" ⟨"bin", ["-test.v", "-test.run", "^B$"]⟩, .printed 1 "B" "<B>", .counted 1,
    .ran 0 "A" ⟨"bin", ["-test.v", "-test.run", "^A$"]⟩, .printed 0 "A" "<A>", .counted 0]

/-- The state `demoSchedule` ends in. -/
def demoFinal : State Unit :=
  ⟨2, [.recv, .recv], ⟨2, "<B><A>", true⟩⟩

/-- The state of `demoConfig` after the first name was dequeued. -/
def demoMid : State Unit :=
  ⟨1, [.running "A" ⟨"A", 0, ()⟩, .recv], ⟨0, "", false⟩⟩

/-- The pool of `demoConfig` with no name to run. -/
def emptyConfig : Config Unit :=
  ⟨demoOps, [], 1, "bin", ""⟩

/-- The pool of `demoConfig` with a pool size of zero. -/
def idleConfig : Config Unit :=
  ⟨demoOps, ["A\n", " B"], 0, "bin", ""⟩

/-! ## Quantities used in the invariants -/

/-- The name a worker holds between its dequeue and the hand-off of its
message. -/
def held {R : Type} : Worker R → Multiset String
  | .running testName _ => {testName}
  | .sendMessage testName _ => {testName}
  | _ => 0

/-- The completion a worker owes once its message was handed off. -/
def owed {R : Type} : Worker R → Nat
  | .sendDone _ _ => 1
  | _ => 0

/-- The moves a worker has left before it is back at its receive. -/
def pending {R : Type} : Worker R → Nat
  | .recv => 0
  | .running _ _ => 3
  | .sendMessage _ _ => 2
  | .sendDone _ _ => 1

/-- The moves the pool has left: four for each name not yet dequeued, and
those of the workers. -/
def measure {R : Type} (cfg : Config R) (s : State R) : Nat :=
  4 * (cfg.testNames.length - s.next) + (s.workers.map pending).sum

/-- The invariant of the pool. -/
structure Inv {R : Type} (cfg : Config R) (os : List Obs) (s : State R) : Prop where
  next_le : s.next ≤ cfg.testNames.length
  deq : dequeuedPos os = List.range s.next
  names : (↑(printedNames os) : Multiset String) + (s.workers.map held).sum
      + ↑((cfg.testNames.drop s.next).map TrimSpace) = ↑(queued cfg.testNames)
  count : s.coord.resultsCount + (s.workers.map owed).sum = (printedNames os).length
  out : s.coord.stdout = concat (printedTexts os)
  exit_count : s.coord.exited = true → s.coord.resultsCount = cfg.testNames.length
  live : s.coord.exited = false → s.coord.resultsCount = cfg.testNames.length →
      cfg.testNames.length = 0
  counted : (countedBy os).length = s.coord.resultsCount
  size : s.workers.length = cfg.parallelism.toNat

/-! ## Lemmas -/

theorem concat_append (l : List String) (x : String) : concat (l ++ [x]) = concat l ++ x := by
  induction l with
  | nil => simp [concat]
  | cons a l ih => simp [concat, ih, String.append_assoc]

theorem sum_map_set {α M : Type} [AddCommMonoid M] (f : α → M) :
    ∀ (l : List α) (i : Nat) (a b : α), l[i]? = some a →
      ((l.set i b).map f).sum + f a = (l.map f).sum + f b
  | [], i, a, b, h => by simp at h
  | x :: l, 0, a, b, h => by
    simp at h
    subst h
    simp only [List.set_cons_zero, List.map_cons, List.sum_cons]
    abel
  | x :: l, i + 1, a, b, h => by
    simp at h
    have ih := sum_map_set f l i a b h
    simp only [List.set_cons_succ, List.map_cons, List.sum_cons]
    rw [add_assoc, ih, add_assoc]

theorem drop_of_getElem? {α : Type} (l : List α) (i : Nat) (a : α) (h : l[i]? = some a) :
    l.drop i = a :: l.drop (i + 1) := by
  obtain ⟨hi, rfl⟩ := List.getElem?_eq_some.mp h
  exact List.drop_eq_getElem_cons hi

/-- The shape of an enabled move. -/
theorem step_cases {R : Type} (cfg : Config R) (s s1 : State R) (a : Action) (o : Obs)
    (h : step cfg s a = some (o, s1)) :
    s.coord.exited = false ∧
    ((∃ w testName, a = .dequeue w ∧ cfg.testNames[s.next]? = some testName ∧
        s.workers[w]? = some .recv ∧ o = .dequeued w s.next (TrimSpace testName) ∧
        s1 = { s with next := s.next + 1,
                      workers := s.workers.set w
                        (.running (TrimSpace testName)
                          (cfg.ops.NewTeamCityTest (TrimSpace testName))) }) ∨
     (∃ w now cmdRun testName test, a = .finish w now cmdRun ∧
        s.workers[w]? = some (.running testName test) ∧
        o = .ran w testName (runTest cfg.ops test cfg.binaryName cfg.timeout now cmdRun).1 ∧
        s1 = { s with workers := s.workers.set w (.sendMessage testName
                (runTest cfg.ops test cfg.binaryName cfg.timeout now cmdRun).2) }) ∨
     (∃ w testName test, a = .message w ∧
        s.workers[w]? = some (.sendMessage testName test) ∧
        o = .printed w testName (cfg.ops.FormatTestOutput test) ∧
        s1 = { s with workers := s.workers.set w (.sendDone testName test),
                      coord := s.coord.receive cfg.testNames.length
                        (.message (cfg.ops.FormatTestOutput test)) }) ∨
     (∃ w testName test, a = .completed w ∧
        s.workers[w]? = some (.sendDone testName test) ∧
        o = .counted w ∧
        s1 = { s with workers := s.workers.set w .recv,
                      coord := s.coord.receive cfg.testNames.length .completed })) := by
  cases a with
  | dequeue w =>
    simp only [step] at h
    split at h
    · exact absurd h (by simp)
    · rename_i hex
      refine ⟨by simpa using hex, Or.inl ?_⟩
      split at h
      · rename_i testName hq hw
        simp only [Option.some.injEq, Prod.mk.injEq] at h
        exact ⟨w, testName, rfl, hq, hw, h.1.symm, h.2.symm⟩
      · exact absurd h (by simp)
  | finish w now cmdRun =>
    simp only [step] at h
    split at h
    · exact absurd h (by simp)
    · rename_i hex
      refine ⟨by simpa using hex, Or.inr (Or.inl ?_)⟩
      split at h
      · rename_i testName test hw
        simp only [Option.some.injEq, Prod.mk.injEq] at h
        exact ⟨w, now, cmdRun, testName, test, rfl, hw, h.1.symm, h.2.symm⟩
      · exact absurd h (by simp)
  | message w =>
    simp only [step] at h
    split at h
    · exact absurd h (by simp)
    · rename_i hex
      refine ⟨by simpa using hex, Or.inr (Or.inr (Or.inl ?_))⟩
      split at h
      · rename_i testName test hw
        simp only [Option.some.injEq, Prod.mk.injEq] at h
        exact ⟨w, testName, test, rfl, hw, h.1.symm, h.2.symm⟩
      · exact absurd h (by simp)
  | completed w =>
    simp only [step] at h
    split at h
    · exact absurd h (by simp)
    · rename_i hex
      refine ⟨by simpa using hex, Or.inr (Or.inr (Or.inr ?_))⟩
      split at h
      · rename_i testName test hw
        simp only [Option.some.injEq, Prod.mk.injEq] at h
        exact ⟨w, testName, test, rfl, hw, h.1.symm, h.2.symm⟩
      · exact absurd h (by simp)

theorem inv_init {R : Type} (cfg : Config R) : Inv cfg [] (init cfg) where
  next_le := Nat.zero_le _
  deq := rfl
  names := by
    have h : ∀ n : Nat, ((List.replicate n (Worker.recv : Worker R)).map held).sum = 0 := by
      intro n
      induction n with
      | zero => rfl
      | succ n ih => simp [List.replicate_succ, held]
    simp [init, printedNames, held, queued]
  count := by
    have h : ∀ n : Nat, ((List.replicate n (Worker.recv : Worker R)).map owed).sum = 0 := by
      intro n
      induction n with
      | zero => rfl
      | succ n ih => simp [List.replicate_succ, owed]
    simp [init, printedNames, owed]
  out := rfl
  exit_count := by simp [init]
  live := by
    intro _ h
    simpa [init] using h.symm
  counted := rfl
  size := by simp [init]

theorem receive_message (n : Nat) (c : Coordinator) (m : String) :
    c.receive n (.message m) = ⟨c.resultsCount, c.stdout ++ m, c.resultsCount == n⟩ := rfl

theorem receive_completed (n : Nat) (c : Coordinator) :
    c.receive n .completed = ⟨c.resultsCount + 1, c.stdout, c.resultsCount + 1 == n⟩ := rfl

/-- Every enabled move keeps the invariant. -/
theorem inv_step {R : Type} (cfg : Config R) (os : List Obs) (s s1 : State R) (a : Action)
    (o : Obs) (hI : Inv cfg os s) (h : step cfg s a = some (o, s1)) :
    Inv cfg (os ++ [o]) s1 := by
  obtain ⟨hex, hc⟩ := step_cases cfg s s1 a o h
  rcases hc with ⟨w, testName, -, hq, hw, rfl, rfl⟩ | ⟨w, now, cmdRun, testName, test, -, hw, rfl, rfl⟩ |
    ⟨w, testName, test, -, hw, rfl, rfl⟩ | ⟨w, testName, test, -, hw, rfl, rfl⟩
  · -- dequeue
    have hlt : s.next < cfg.testNames.length := (List.getElem?_eq_some.mp hq).1
    have hheld := sum_map_set held s.workers w _
      (Worker.running (TrimSpace testName) (cfg.ops.NewTeamCityTest (TrimSpace testName))) hw
    have howed := sum_map_set owed s.workers w _
      (Worker.running (TrimSpace testName) (cfg.ops.NewTeamCityTest (TrimSpace testName))) hw
    simp only [held, owed, add_zero] at hheld howed
    refine ⟨hlt, ?_, ?_, ?_, ?_, hI.exit_count, hI.live, ?_, ?_⟩
    · simp [dequeuedPos, List.filterMap_append, List.range_succ] at *
      exact hI.deq
    · have hn := hI.names
      rw [drop_of_getElem? _ _ _ hq] at hn
      simp only [printedNames, List.filterMap_append, List.filterMap_cons, List.filterMap_nil,
        List.append_nil] at *
      rw [hheld, ← hn, List.map_cons, ← Multiset.cons_coe, ← Multiset.singleton_add]
      abel
    · simp only [printedNames, List.filterMap_append, List.filterMap_cons, List.filterMap_nil,
        List.append_nil] at *
      rw [howed]
      exact hI.count
    · simpa [printedTexts, List.filterMap_append] using hI.out
    · simpa [countedBy, List.filterMap_append] using hI.counted
    · simpa using hI.size
  · -- finish
    have hheld := sum_map_set held s.workers w _
      (Worker.sendMessage testName
        (runTest cfg.ops test cfg.binaryName cfg.timeout now cmdRun).2) hw
    have howed := sum_map_set owed s.workers w _
      (Worker.sendMessage testName
        (runTest cfg.ops test cfg.binaryName cfg.timeout now cmdRun).2) hw
    simp only [held, owed, add_zero] at hheld howed
    have hheld2 := add_right_cancel hheld
    refine ⟨hI.next_le, ?_, ?_, ?_, ?_, hI.exit_count, hI.live, ?_, ?_⟩
    · simpa [dequeuedPos, List.filterMap_append] using hI.deq
    · simp only [printedNames, List.filterMap_append, List.filterMap_cons, List.filterMap_nil,
        List.append_nil] at *
      rw [hheld2]
      exact hI.names
    · simp only [printedNames, List.filterMap_append, List.filterMap_cons, List.filterMap_nil,
        List.append_nil] at *
      rw [howed]
      exact hI.count
    · simpa [printedTexts, List.filterMap_append] using hI.out
    · simpa [countedBy, List.filterMap_append] using hI.counted
    · simpa using hI.size
  · -- message
    have hheld := sum_map_set held s.workers w _ (Worker.sendDone testName test) hw
    have howed := sum_map_set owed s.workers w _ (Worker.sendDone testName test) hw
    simp only [held, owed, add_zero] at hheld howed
    refine ⟨hI.next_le, ?_, ?_, ?_, ?_, ?_, ?_, ?_, ?_⟩
    · simpa [dequeuedPos, List.filterMap_append] using hI.deq
    · have hn := hI.names
      simp only [printedNames, List.filterMap_append, List.filterMap_cons, List.filterMap_nil,
        ← Multiset.coe_add, ← Multiset.coe_singleton] at *
      rw [← hn, ← hheld]
      abel
    · have hn := hI.count
      simp only [printedNames, List.filterMap_append, List.filterMap_cons, List.filterMap_nil,
        List.length_append, List.length_singleton, receive_message] at *
      omega
    · simp only [printedTexts, List.filterMap_append, List.filterMap_cons, List.filterMap_nil,
        receive_message]
      rw [concat_append]
      have := hI.out
      simp only [printedTexts] at this
      rw [this]
    · simp only [receive_message]
      intro he
      simpa using he
    · simp only [receive_message]
      intro he hn
      simp [hn] at he
    · simpa [countedBy, List.filterMap_append, receive_message] using hI.counted
    · simpa using hI.size
  · -- completed
    have hheld := sum_map_set held s.workers w _ (Worker.recv : Worker R) hw
    have howed := sum_map_set owed s.workers w _ (Worker.recv : Worker R) hw
    simp only [held, owed, add_zero] at hheld howed
    refine ⟨hI.next_le, ?_, ?_, ?_, ?_, ?_, ?_, ?_, ?_⟩
    · simpa [dequeuedPos, List.filterMap_append] using hI.deq
    · simp only [printedNames, List.filterMap_append, List.filterMap_cons, List.filterMap_nil,
        List.append_nil] at *
      rw [hheld]
      exact hI.names
    · have hn := hI.count
      simp only [printedNames, List.filterMap_append, List.filterMap_cons, List.filterMap_nil,
        List.append_nil, receive_completed] at *
      omega
    · simpa [printedTexts, List.filterMap_append, receive_completed] using hI.out
    · simp only [receive_completed]
      intro he
      simpa using he
    · simp only [receive_completed]
      intro he hn
      simp [hn] at he
    · simpa [countedBy, List.filterMap_append, receive_completed] using hI.counted
    · simpa using hI.size

/-- The invariant holds along every sequence of moves. -/
theorem inv_run {R : Type} (cfg : Config R) :
    ∀ (as : List Action) (os0 : List Obs) (s : State R) (os : List Obs) (s1 : State R),
      Inv cfg os0 s → run cfg s as = some (os, s1) → Inv cfg (os0 ++ os) s1
  | [], os0, s, os, s1, hI, h => by
    simp only [run, Option.some.injEq, Prod.mk.injEq] at h
    obtain ⟨rfl, rfl⟩ := h
    simpa using hI
  | a :: as, os0, s, os, s1, hI, h => by
    simp only [run] at h
    split at h
    · exact absurd h (by simp)
    · rename_i o s2 hs
      split at h
      · exact absurd h (by simp)
      · rename_i os2 s3 hr
        simp only [Option.some.injEq, Prod.mk.injEq] at h
        obtain ⟨rfl, rfl⟩ := h
        have := inv_run cfg as (os0 ++ [o]) s2 os2 s3 (inv_step cfg os0 s s2 a o hI hs) hr
        simpa using this

theorem inv_of_reachable {R : Type} (cfg : Config R) (os : List Obs) (s : State R)
    (h : Reachable cfg os s) : Inv cfg os s := by
  obtain ⟨as, h⟩ := h
  simpa using inv_run cfg as [] (init cfg) os s (inv_init cfg) h

/-- The names printed, held and not yet dequeued are as many as were read. -/
theorem inv_card {R : Type} (cfg : Config R) (os : List Obs) (s : State R) (hI : Inv cfg os s) :
    (printedNames os).length + Multiset.card (s.workers.map held).sum
      + (cfg.testNames.length - s.next) = cfg.testNames.length := by
  have h := congrArg Multiset.card hI.names
  simpa [queued] using h

theorem resultsCount_le {R : Type} (cfg : Config R) (os : List Obs) (s : State R)
    (hI : Inv cfg os s) : s.coord.resultsCount ≤ cfg.testNames.length := by
  have h1 := inv_card cfg os s hI
  have h2 := hI.count
  omega

theorem sum_map_eq_zero {α M : Type} [AddCommMonoid M] (f : α → M) (l : List α)
    (h : ∀ a ∈ l, f a = 0) : (l.map f).sum = 0 := by
  induction l with
  | nil => rfl
  | cons x l ih =>
    simp only [List.map_cons, List.sum_cons]
    rw [h x (List.mem_cons_self _ _), ih (fun a ha => h a (List.mem_cons_of_mem _ ha)), add_zero]

/-- Every enabled move takes one off the measure. -/
theorem measure_step {R : Type} (cfg : Config R) (s s1 : State R) (a : Action) (o : Obs)
    (h : step cfg s a = some (o, s1)) : measure cfg s1 + 1 = measure cfg s := by
  obtain ⟨-, hc⟩ := step_cases cfg s s1 a o h
  rcases hc with ⟨w, testName, -, hq, hw, -, rfl⟩ | ⟨w, now, cmdRun, testName, test, -, hw, -, rfl⟩ |
    ⟨w, testName, test, -, hw, -, rfl⟩ | ⟨w, testName, test, -, hw, -, rfl⟩
  · have hlt : s.next < cfg.testNames.length := (List.getElem?_eq_some.mp hq).1
    have hp := sum_map_set pending s.workers w _
      (Worker.running (TrimSpace testName) (cfg.ops.NewTeamCityTest (TrimSpace testName))) hw
    simp only [pending, measure] at *
    omega
  · have hp := sum_map_set pending s.workers w _
      (Worker.sendMessage testName
        (runTest cfg.ops test cfg.binaryName cfg.timeout now cmdRun).2) hw
    simp only [pending, measure] at *
    omega
  · have hp := sum_map_set pending s.workers w _ (Worker.sendDone testName test) hw
    simp only [pending, measure] at *
    omega
  · have hp := sum_map_set pending s.workers w _ (Worker.recv : Worker R) hw
    simp only [pending, measure] at *
    omega

/-- While completions are missing, some move is enabled. -/
theorem enabled_of_inv {R : Type} (cfg : Config R) (os : List Obs) (s : State R)
    (hI : Inv cfg os s) (hP : 1 ≤ cfg.parallelism)
    (hlt : s.coord.resultsCount < cfg.testNames.length) :
    ∃ (a : Action) (o : Obs) (s1 : State R), step cfg s a = some (o, s1) := by
  have hex : s.coord.exited = false := by
    cases he : s.coord.exited with
    | false => rfl
    | true => have := hI.exit_count he; omega
  by_cases hall : ∀ x ∈ s.workers, x = Worker.recv
  · -- every worker waits for a name: one is left for the feeder to send
    have hheld : (s.workers.map held).sum = 0 :=
      sum_map_eq_zero held s.workers (fun x hx => by rw [hall x hx]; rfl)
    have howed : (s.workers.map owed).sum = 0 :=
      sum_map_eq_zero owed s.workers (fun x hx => by rw [hall x hx]; rfl)
    have h1 := inv_card cfg os s hI
    have h2 := hI.count
    rw [hheld] at h1
    rw [howed] at h2
    simp only [Multiset.card_zero, add_zero] at h1 h2
    have hnext : s.next < cfg.testNames.length := by omega
    have hlen : 0 < s.workers.length := by
      rw [hI.size]
      omega
    have hw : s.workers[0]? = some Worker.recv := by
      rw [List.getElem?_eq_getElem hlen]
      exact congrArg some (hall _ (List.getElem_mem _))
    have hq : cfg.testNames[s.next]? = some (cfg.testNames[s.next]) :=
      List.getElem?_eq_getElem hnext
    exact ⟨.dequeue 0, _, _, by simp only [step, hex, hq, hw]; rfl⟩
  · push_neg at hall
    obtain ⟨x, hx, hne⟩ := hall
    obtain ⟨w, hw⟩ := List.mem_iff_getElem?.mp hx
    cases x with
    | recv => exact absurd rfl hne
    | running testName test =>
      exact ⟨.finish w 0 (fun _ => ⟨"", "", none⟩), _, _, by simp only [step, hex, hw]; rfl⟩
    | sendMessage testName test =>
      exact ⟨.message w, _, _, by simp only [step, hex, hw]; rfl⟩
    | sendDone testName test =>
      exact ⟨.completed w, _, _, by simp only [step, hex, hw]; rfl⟩

/-- While completions are missing, the pool can be run to the coordinator's
exit. -/
theorem progress_of_inv {R : Type} (cfg : Config R) (hP : 1 ≤ cfg.parallelism) :
    ∀ (n : Nat) (os : List Obs) (s : State R), Inv cfg os s → measure cfg s = n →
      s.coord.resultsCount < cfg.testNames.length →
      ∃ (as : List Action) (os1 : List Obs) (s1 : State R),
        run cfg s as = some (os1, s1) ∧ s1.coord.exited = true ∧
          s1.coord.resultsCount = cfg.testNames.length
  | 0, os, s, hI, hm, hlt => by
    obtain ⟨a, o, s1, hs⟩ := enabled_of_inv cfg os s hI hP hlt
    have := measure_step cfg s s1 a o hs
    omega
  | n + 1, os, s, hI, hm, hlt => by
    obtain ⟨a, o, s1, hs⟩ := enabled_of_inv cfg os s hI hP hlt
    have hm1 := measure_step cfg s s1 a o hs
    have hI1 := inv_step cfg os s s1 a o hI hs
    cases he : s1.coord.exited with
    | true =>
      exact ⟨[a], [o], s1, by simp [run, hs], he, hI1.exit_count he⟩
    | false =>
      have hle := resultsCount_le cfg _ s1 hI1
      have hlt1 : s1.coord.resultsCount < cfg.testNames.length := by
        rcases Nat.lt_or_ge s1.coord.resultsCount cfg.testNames.length with h | h
        · exact h
        · have := hI1.live he (Nat.le_antisymm hle h)
          omega
      obtain ⟨as, os2, s2, hr, h2, h3⟩ :=
        progress_of_inv cfg hP n _ s1 hI1 (by omega) hlt1
      exact ⟨a :: as, o :: os2, s2, by simp [run, hs, hr], h2, h3⟩

/-! ## Lemmas on reading and trimming -/

theorem splitOn_cons_eq (c : Char) (cs : List Char) :
    (c :: cs).splitOn '\n' =
      if c = '\n' then [] :: cs.splitOn '\n'
      else (cs.splitOn '\n').modifyHead (List.cons c) := by
  simp only [List.splitOn, List.splitOnP_cons, beq_iff_eq]

theorem dropWhile_concat_pos {α : Type} (p : α → Bool) (a : α) (ha : p a = true) :
    ∀ l : List α, (l ++ [a]).dropWhile p = l.dropWhile p ++ [a] ∨
      ((l ++ [a]).dropWhile p = [] ∧ l.dropWhile p = [])
  | [] => by simp [List.dropWhile, ha]
  | x :: l => by
    by_cases hx : p x = true
    · simpa [List.dropWhile, hx] using dropWhile_concat_pos p a ha l
    · simp [List.dropWhile, hx]

theorem trimChars_newline (l : List Char) : trimChars (l ++ ['\n']) = trimChars l := by
  have hs : isSpace '\n' = true := by decide
  rcases dropWhile_concat_pos isSpace '\n' hs l with h | ⟨h1, h2⟩
  · simp only [trimChars, h]
    exact List.rdropWhile_concat_pos _ _ _ hs
  · simp only [trimChars, h1, h2]

theorem string_eq_empty (l : List Char) : (⟨l⟩ : String) = "" ↔ l = [] := by
  constructor
  · intro h
    exact congrArg String.data h
  · intro h
    rw [h]

/-- What `ReadString` returns, against the split of the input at newlines. -/
theorem ReadString_spec (failure : ReadError) :
    ∀ input : List Char,
      ((ReadString '\n' failure input).2.2 = none ∧
        ∃ l : List Char, (ReadString '\n' failure input).1 = ⟨l ++ ['\n']⟩ ∧
          input.splitOn '\n' = l :: ((ReadString '\n' failure input).2.1).splitOn '\n' ∧
          (ReadString '\n' failure input).2.1.length < input.length) ∨
      ((ReadString '\n' failure input).2.2 = some failure ∧
        (ReadString '\n' failure input).1 = ⟨input⟩ ∧ input.splitOn '\n' = [input])
  | [] => Or.inr ⟨rfl, rfl, rfl⟩
  | c :: cs => by
    by_cases hc : c = '\n'
    · refine Or.inl ⟨by simp [ReadString, hc], [], by simp [ReadString, hc], ?_, ?_⟩
      · rw [splitOn_cons_eq, if_pos hc]
        simp [ReadString, hc]
      · simp [ReadString, hc]
    · rcases ReadString_spec failure cs with ⟨h1, l, h2, h3, h4⟩ | ⟨h1, h2, h3⟩
      · refine Or.inl ⟨by simp [ReadString, hc, h1], c :: l, by simp [ReadString, hc, h2], ?_, ?_⟩
        · rw [splitOn_cons_eq, if_neg hc, h3]
          simp [ReadString, hc]
        · simp only [ReadString, hc, if_false, List.length_cons]
          omega
      · refine Or.inr ⟨by simp [ReadString, hc, h1], by simp [ReadString, hc, h2], ?_⟩
        rw [splitOn_cons_eq, if_neg hc, h3]
        rfl

theorem specNames_cons (l : List Char) (ls : List (List Char)) :
    ((l :: ls).map fun l => TrimSpace ⟨l⟩).filter (fun name => name ≠ "") =
      if TrimSpace ⟨l⟩ ≠ "" then
        TrimSpace ⟨l⟩ :: (ls.map fun l => TrimSpace ⟨l⟩).filter (fun name => name ≠ "")
      else (ls.map fun l => TrimSpace ⟨l⟩).filter (fun name => name ≠ "") := by
  by_cases h : TrimSpace ⟨l⟩ = ""
  · simp [List.filter, h]
  · simp [List.filter, h]

theorem TrimSpace_newline (l : List Char) : TrimSpace ⟨l ++ ['\n']⟩ = TrimSpace ⟨l⟩ := by
  simp only [TrimSpace, trimChars_newline]

/-- The read loop on an input that ends with `io.EOF`: it returns, and the
names it appends are, once trimmed, those of the specification. -/
theorem readLoop_eof :
    ∀ (fuel : Nat) (input : List Char) (testNames : List String) (reads : Nat),
      input.length < fuel →
      ∃ names : List String,
        readLoop ReadError.EOF fuel input testNames reads = some (.ok (testNames ++ names)) ∧
          queued names = specNames input
  | 0, _, _, _, h => absurd h (Nat.not_lt_zero _)
  | fuel + 1, input, testNames, reads, h => by
    rcases ReadString_spec ReadError.EOF input with ⟨h1, l, h2, h3, h4⟩ | ⟨h1, h2, h3⟩
    · by_cases ht : TrimSpace ⟨l⟩ = ""
      · obtain ⟨names, hn, hq⟩ := readLoop_eof fuel (ReadString '\n' ReadError.EOF input).2.1
          testNames (reads + 1) (by omega)
        refine ⟨names, ?_, ?_⟩
        · simp only [readLoop, h1, h2, TrimSpace_newline, ht, ne_eq, not_true_eq_false,
            if_false]
          exact hn
        · rw [hq, specNames, specNames, h3, specNames_cons]
          simp [ht]
      · obtain ⟨names, hn, hq⟩ := readLoop_eof fuel (ReadString '\n' ReadError.EOF input).2.1
          (testNames ++ [⟨l ++ ['\n']⟩]) (reads + 1) (by omega)
        refine ⟨⟨l ++ ['\n']⟩ :: names, ?_, ?_⟩
        · simp only [readLoop, h1, h2, TrimSpace_newline, ht, ne_eq, not_false_eq_true,
            if_true]
          rw [hn]
          simp
        · rw [specNames, h3, specNames_cons]
          simp only [ne_eq, ht, not_false_eq_true, if_true]
          simp only [queued, List.map_cons, TrimSpace_newline] at hq ⊢
          rw [hq, specNames]
    · by_cases ht : TrimSpace ⟨input⟩ = ""
      · refine ⟨[], ?_, ?_⟩
        · simp [readLoop, h1, h2, ht]
        · simp [specNames, h3, ht, queued]
      · refine ⟨[⟨input⟩], ?_, ?_⟩
        · simp [readLoop, h1, h2, ht]
        · simp [specNames, h3, ht, queued]

/-- A trimmed string that is not empty begins and ends with a character that
is not white space. -/
theorem trimChars_ends (l : List Char) (h : trimChars l ≠ []) :
    (∀ c, (trimChars l).head? = some c → isSpace c = false) ∧
      (∀ c, (trimChars l).getLast? = some c → isSpace c = false) := by
  constructor
  · intro c hc
    have hpre : trimChars l <+: l.dropWhile isSpace := List.rdropWhile_prefix _ _
    obtain ⟨t, ht⟩ := hpre
    have hd : l.dropWhile isSpace ≠ [] := by
      intro h0
      rw [h0] at ht
      exact h (List.append_eq_nil.mp ht).1
    have hhead : (l.dropWhile isSpace).head? = some c := by
      rw [← ht, List.head?_append_of_ne_nil _ h]
      exact hc
    have hnot := List.head_dropWhile_not isSpace l hd
    rw [List.head?_eq_head hd] at hhead
    have : (l.dropWhile isSpace).head hd = c := Option.some.inj hhead
    rw [this] at hnot
    simpa using hnot
  · intro c hc
    have hnot := List.rdropWhile_last_not isSpace (l.dropWhile isSpace) h
    have hl : (trimChars l).getLast? = some ((trimChars l).getLast h) :=
      List.getLast?_eq_getLast _ h
    rw [hl] at hc
    have : (trimChars l).getLast h = c := Option.some.inj hc
    simp only [trimChars] at this
    rw [this] at hnot
    simpa using hnot

theorem printedTexts_length (os : List Obs) :
    (printedTexts os).length = (printedNames os).length := by
  induction os with
  | nil => rfl
  | cons o os ih =>
    cases o <;> simp_all [printedTexts, printedNames, List.filterMap_cons]

/-- A state in which no move is enabled is never left. -/
theorem run_stuck {R : Type} (cfg : Config R) (s : State R)
    (hs : ∀ a : Action, step cfg s a = none) (as : List Action) (os : List Obs) (s1 : State R)
    (h : run cfg s as = some (os, s1)) : os = [] ∧ s1 = s := by
  cases as with
  | nil =>
    simp only [run, Option.some.injEq, Prod.mk.injEq] at h
    exact ⟨h.1.symm, h.2.symm⟩
  | cons a as =>
    simp [run, hs a] at h

/-- With no name to send, no move of the pool is enabled. -/
theorem step_init_empty {R : Type} (cfg : Config R) (hN : cfg.testNames = [])
    (a : Action) : step cfg (init cfg) a = none := by
  have hw : ∀ w : Nat, (init cfg).workers[w]? = some Worker.recv ∨
      (init cfg).workers[w]? = none := by
    intro w
    simp only [init, List.getElem?_replicate]
    split
    · exact Or.inl rfl
    · exact Or.inr rfl
  cases a with
  | dequeue w => simp [step, init, hN]
  | finish w now cmdRun =>
    rcases hw w with h | h <;> simp [step, h]
  | message w =>
    rcases hw w with h | h <;> simp [step, h]
  | completed w =>
    rcases hw w with h | h <;> simp [step, h]

/-- With no worker, no move of the pool is enabled. -/
theorem step_init_idle {R : Type} (cfg : Config R) (hP : cfg.parallelism ≤ 0)
    (a : Action) : step cfg (init cfg) a = none := by
  have h0 : cfg.parallelism.toNat = 0 := Int.toNat_eq_zero.mpr hP
  have hw : ∀ w : Nat, (init cfg).workers[w]? = none := by
    intro w
    simp [init, h0]
  cases a with
  | dequeue w =>
    simp only [step, hw w]
    split
    · rfl
    · split <;> simp_all
  | finish w now cmdRun => simp [step, hw w]
  | message w => simp [step, hw w]
  | completed w => simp [step, hw w]

/-- A worker that holds a name keeps a completion from being counted. -/
theorem resultsCount_lt_of_held {R : Type} (cfg : Config R) (os : List Obs) (s : State R)
    (hI : Inv cfg os s) (w : Nat) (x : Worker R) (hw : s.workers[w]? = some x)
    (hx : Multiset.card (held x) = 1) : s.coord.resultsCount < cfg.testNames.length := by
  have h1 := inv_card cfg os s hI
  have h2 := hI.count
  have h3 := congrArg Multiset.card (sum_map_set held s.workers w x Worker.recv hw)
  have hrecv : held (Worker.recv : Worker R) = 0 := rfl
  rw [hrecv, Multiset.card_add, Multiset.card_add, hx, Multiset.card_zero] at h3
  omega

theorem ReadString_line (failure : ReadError) (rest : List Char) :
    ∀ l : List Char, '\n' ∉ l →
      ReadString '\n' failure (l ++ '\n' :: rest) = (⟨l ++ ['\n']⟩, rest, none)
  | [], _ => by simp [ReadString]
  | c :: l, h => by
    have hc : c ≠ '\n' := fun e => h (e ▸ List.mem_cons_self _ _)
    have hl : '\n' ∉ l := fun e => h (List.mem_cons_of_mem _ e)
    simp [ReadString, hc, ReadString_line failure rest l hl]

theorem ReadString_last (failure : ReadError) :
    ∀ l : List Char, '\n' ∉ l → ReadString '\n' failure l = (⟨l⟩, [], some failure)
  | [], _ => rfl
  | c :: l, h => by
    have hc : c ≠ '\n' := fun e => h (e ▸ List.mem_cons_self _ _)
    have hl : '\n' ∉ l := fun e => h (List.mem_cons_of_mem _ e)
    simp [ReadString, hc, ReadString_last failure l hl]

/-- The read loop keeps a last line that has no newline and is not blank. -/
theorem readLoop_last (last : List Char) (hlast : '\n' ∉ last)
    (hkeep : TrimSpace ⟨last⟩ ≠ "") :
    ∀ (lines : List (List Char)) (fuel : Nat) (testNames : List String) (reads : Nat),
      (∀ l ∈ lines, '\n' ∉ l) → (unlines lines ++ last).length < fuel →
      ∃ names : List String,
        readLoop ReadError.EOF fuel (unlines lines ++ last) testNames reads =
          some (.ok (testNames ++ names ++ [⟨last⟩]))
  | _, 0, _, _, _, h => absurd h (Nat.not_lt_zero _)
  | [], fuel + 1, testNames, reads, _, _ => by
    refine ⟨[], ?_⟩
    simp [unlines, readLoop, ReadString_last ReadError.EOF last hlast, hkeep]
  | l :: lines, fuel + 1, testNames, reads, hl, hf => by
    have h1 : '\n' ∉ l := hl l (List.mem_cons_self _ _)
    have h2 : ∀ x ∈ lines, '\n' ∉ x := fun x hx => hl x (List.mem_cons_of_mem _ hx)
    have hf2 : (unlines lines ++ last).length < fuel := by
      simp only [unlines, List.append_assoc, List.cons_append, List.length_append,
        List.length_cons] at hf ⊢
      omega
    have hrs := ReadString_line ReadError.EOF (unlines lines ++ last) l h1
    have hin : unlines (l :: lines) ++ last = l ++ '\n' :: (unlines lines ++ last) := by
      simp [unlines]
    by_cases ht : TrimSpace ⟨l ++ ['\n']⟩ = ""
    · obtain ⟨names, hn⟩ := readLoop_last last hlast hkeep lines fuel testNames (reads + 1) h2 hf2
      refine ⟨names, ?_⟩
      rw [hin]
      simp only [readLoop, hrs, ht, ne_eq, not_true_eq_false, if_false]
      exact hn
    · obtain ⟨names, hn⟩ := readLoop_last last hlast hkeep lines fuel
        (testNames ++ [⟨l ++ ['\n']⟩]) (reads + 1) h2 hf2
      refine ⟨⟨l ++ ['\n']⟩ :: names, ?_⟩
      rw [hin]
      simp only [readLoop, hrs, ht, ne_eq, not_false_eq_true, if_true]
      rw [hn]
      simp

/-- On an input that ends with an error other than `io.EOF`, the read loop
ends in the exit of line 52. -/
theorem readLoop_error (failure : ReadError) (hne : failure ≠ ReadError.EOF) :
    ∀ (fuel : Nat) (input : List Char) (testNames : List String) (reads : Nat),
      input.length < fuel →
      ∃ n : Nat, readLoop failure fuel input testNames reads =
        some (.error ⟨1, "error reading stdin: " ++ failure.Error, n⟩)
  | 0, _, _, _, h => absurd h (Nat.not_lt_zero _)
  | fuel + 1, input, testNames, reads, h => by
    rcases ReadString_spec failure input with ⟨h1, l, h2, h3, h4⟩ | ⟨h1, h2, h3⟩
    · by_cases ht : TrimSpace ⟨l ++ ['\n']⟩ = ""
      · obtain ⟨n, hn⟩ := readLoop_error failure hne fuel (ReadString '\n' failure input).2.1
          testNames (reads + 1) (by omega)
        refine ⟨n, ?_⟩
        simp only [readLoop, h1, h2, ht, ne_eq, not_true_eq_false, if_false]
        exact hn
      · obtain ⟨n, hn⟩ := readLoop_error failure hne fuel (ReadString '\n' failure input).2.1
          (testNames ++ [⟨l ++ ['\n']⟩]) (reads + 1) (by omega)
        refine ⟨n, ?_⟩
        simp only [readLoop, h1, h2, ht, ne_eq, not_false_eq_true, if_true]
        exact hn
    · exact ⟨reads + 1, by simp [readLoop, h1, hne]⟩

/-! ## The claims -/

/-- C1: in every reachable state of the pool, for every list of names and
every pool size, each position of the submitted list was dequeued at most
once (and lies within the list); and once the coordinator has left its receive
loop it has counted exactly N completions and printed exactly N blocks, the
names of the printed blocks being a permutation of the submitted names. -/
theorem C1_each_name_once {R : Type} (cfg : Config R) (os : List Obs) (s : State R)
    (h : Reachable cfg os s) :
    (∀ pos : Nat, (dequeuedPos os).count pos ≤ 1) ∧
    (∀ pos ∈ dequeuedPos os, pos < cfg.testNames.length) ∧
    (s.coord.exited = true →
      s.coord.resultsCount = cfg.testNames.length ∧
      (countedBy os).length = cfg.testNames.length ∧
      (printedTexts os).length = cfg.testNames.length ∧
      (printedNames os).Perm (queued cfg.testNames)) := by
  have hI := inv_of_reachable cfg os s h
  refine ⟨?_, ?_, ?_⟩
  · intro pos
    rw [hI.deq]
    exact List.nodup_iff_count_le_one.mp (List.nodup_range _) pos
  · intro pos hpos
    rw [hI.deq, List.mem_range] at hpos
    exact Nat.lt_of_lt_of_le hpos hI.next_le
  · intro he
    have hc := hI.exit_count he
    have h1 := inv_card cfg os s hI
    have h2 := hI.count
    have hlen : (printedNames os).length = cfg.testNames.length := by omega
    have hheld : (s.workers.map held).sum = 0 := Multiset.card_eq_zero.mp (by omega)
    have hnext : cfg.testNames.length ≤ s.next := by omega
    have hn := hI.names
    rw [hheld, List.drop_eq_nil_of_le hnext] at hn
    simp only [List.map_nil, Multiset.coe_nil, add_zero] at hn
    refine ⟨hc, ?_, ?_, Multiset.coe_eq_coe.mp hn⟩
    · rw [hI.counted, hc]
    · rw [printedTexts_length, hlen]

/-- The worked example of C1: the full schedule of the two-name pool. -/
theorem C1_each_name_once_witness :
    Reachable demoConfig demoObs demoFinal ∧
    (∀ pos : Nat, (dequeuedPos demoObs).count pos ≤ 1) ∧
    (∀ pos ∈ dequeuedPos demoObs, pos < demoConfig.testNames.length) ∧
    (demoFinal.coord.exited = true →
      demoFinal.coord.resultsCount = demoConfig.testNames.length ∧
      (countedBy demoObs).length = demoConfig.testNames.length ∧
      (printedTexts demoObs).length = demoConfig.testNames.length ∧
      (printedNames demoObs).Perm (queued demoConfig.testNames)) :=
  ⟨⟨demoSchedule, rfl⟩, C1_each_name_once demoConfig demoObs demoFinal ⟨demoSchedule, rfl⟩⟩

/-- C2: for every pool size P ≥ 1, in every reachable state in which the
coordinator has counted fewer than N completions some move is enabled (a
dequeue, the return of a `runTest` call, a message hand-off or a completion
hand-off), and a sequence of moves leads from it to a state in which the
coordinator has counted N completions and has left its receive loop. -/
theorem C2_no_deadlock {R : Type} (cfg : Config R) (hP : 1 ≤ cfg.parallelism)
    (os : List Obs) (s : State R) (h : Reachable cfg os s)
    (hlt : s.coord.resultsCount < cfg.testNames.length) :
    (∃ (a : Action) (o : Obs) (s1 : State R), step cfg s a = some (o, s1)) ∧
    (∃ (as : List Action) (os1 : List Obs) (s1 : State R),
      run cfg s as = some (os1, s1) ∧ s1.coord.exited = true ∧
        s1.coord.resultsCount = cfg.testNames.length) := by
  have hI := inv_of_reachable cfg os s h
  exact ⟨enabled_of_inv cfg os s hI hP hlt,
    progress_of_inv cfg hP (measure cfg s) os s hI rfl hlt⟩

/-- The worked example of C2: the two-name pool after its first dequeue. -/
theorem C2_no_deadlock_witness :
    (1 ≤ demoConfig.parallelism ∧ Reachable demoConfig [.dequeued 0 0 "A"] demoMid ∧
      demoMid.coord.resultsCount < demoConfig.testNames.length) ∧
    ((∃ (a : Action) (o : Obs) (s1 : State Unit), step demoConfig demoMid a = some (o, s1)) ∧
    (∃ (as : List Action) (os1 : List Obs) (s1 : State Unit),
      run demoConfig demoMid as = some (os1, s1) ∧ s1.coord.exited = true ∧
        s1.coord.resultsCount = demoConfig.testNames.length)) :=
  ⟨⟨by decide, ⟨[.dequeue 0], rfl⟩, by decide⟩,
    C2_no_deadlock demoConfig (by decide) [.dequeued 0 0 "A"] demoMid ⟨[.dequeue 0], rfl⟩
      (by decide)⟩

/-- C3, as stated, fails: with no name and a pool size of 1, `main` has
started one worker when it enters its receive loop, and no sequence of moves
makes the coordinator leave that loop. -/
theorem C3_counterexample :
    (init emptyConfig).workers.length = 1 ∧
    ¬ ∃ (as : List Action) (os : List Obs) (s : State Unit),
      run emptyConfig (init emptyConfig) as = some (os, s) ∧ s.coord.exited = true := by
  refine ⟨rfl, ?_⟩
  rintro ⟨as, os, s, h, he⟩
  obtain ⟨-, rfl⟩ := run_stuck emptyConfig (init emptyConfig)
    (step_init_empty emptyConfig rfl) as os s h
  exact absurd he (by decide)

/-- C3, amended: with no name supplied, `main` still starts its workers, as
many as the pool size (none for a pool size of zero or less); in every
reachable state each of them waits at its receive, no name was dequeued, no
subprocess was run, and nothing was written to standard output. -/
theorem C3_no_names {R : Type} (cfg : Config R) (hN : cfg.testNames = []) :
    (init cfg).workers.length = cfg.parallelism.toNat ∧
    ∀ (os : List Obs) (s : State R), Reachable cfg os s →
      s.workers = List.replicate cfg.parallelism.toNat Worker.recv ∧
      dequeuedPos os = [] ∧ (∀ w name cmd, Obs.ran w name cmd ∉ os) ∧
      printedTexts os = [] ∧ s.coord.stdout = "" := by
  refine ⟨by simp [init], ?_⟩
  rintro os s ⟨as, h⟩
  obtain ⟨rfl, rfl⟩ := run_stuck cfg (init cfg) (step_init_empty cfg hN) as os s h
  exact ⟨rfl, rfl, by simp, rfl, rfl⟩

/-- The worked example of the amended C3: the pool with no name and one
worker. -/
theorem C3_no_names_witness :
    emptyConfig.testNames = [] ∧
    ((init emptyConfig).workers.length = emptyConfig.parallelism.toNat ∧
    ∀ (os : List Obs) (s : State Unit), Reachable emptyConfig os s →
      s.workers = List.replicate emptyConfig.parallelism.toNat Worker.recv ∧
      dequeuedPos os = [] ∧ (∀ w name cmd, Obs.ran w name cmd ∉ os) ∧
      printedTexts os = [] ∧ s.coord.stdout = "") :=
  ⟨rfl, C3_no_names emptyConfig rfl⟩

/-- C10: the pool size is not validated.  For every pool size P ≤ 0 and
every N ≥ 1 names, `main` starts no worker; in every reachable state no name
was dequeued, nothing was printed, the completion count is 0 and below N, and
the coordinator has not left its receive loop. -/
theorem C10_idle_pool {R : Type} (cfg : Config R) (hP : cfg.parallelism ≤ 0)
    (hN : 1 ≤ cfg.testNames.length) (os : List Obs) (s : State R)
    (h : Reachable cfg os s) :
    s.workers = [] ∧ dequeuedPos os = [] ∧ printedTexts os = [] ∧ s.coord.stdout = "" ∧
      s.coord.resultsCount = 0 ∧ s.coord.resultsCount < cfg.testNames.length ∧
      s.coord.exited = false := by
  obtain ⟨as, h⟩ := h
  obtain ⟨rfl, rfl⟩ := run_stuck cfg (init cfg) (step_init_idle cfg hP) as os s h
  have h0 : cfg.parallelism.toNat = 0 := Int.toNat_eq_zero.mpr hP
  exact ⟨by simp [init, h0], rfl, rfl, rfl, rfl, hN, rfl⟩

/-- The worked example of C10: two names and a pool size of zero. -/
theorem C10_idle_pool_witness :
    (idleConfig.parallelism ≤ 0 ∧ 1 ≤ idleConfig.testNames.length ∧
      Reachable idleConfig [] (init idleConfig)) ∧
    ((init idleConfig).workers = [] ∧ dequeuedPos [] = [] ∧ printedTexts [] = [] ∧
      (init idleConfig).coord.stdout = "" ∧ (init idleConfig).coord.resultsCount = 0 ∧
      (init idleConfig).coord.resultsCount < idleConfig.testNames.length ∧
      (init idleConfig).coord.exited = false) :=
  ⟨⟨by decide, by decide, ⟨[], rfl⟩⟩,
    C10_idle_pool idleConfig (by decide) (by decide) [] (init idleConfig) ⟨[], rfl⟩⟩

/-- C4: for every test and every timeout string, the command `runTest`
runs is the binary with the arguments `-test.v`, `-test.run`, and the name
between `^` and `$`, followed by `-test.timeout` and the timeout, unchanged,
exactly when the timeout is not empty; and the output that is parsed is the
output of that command. -/
theorem C4_arguments {R : Type} (ops : TestOps R) (test : TeamCityTest R)
    (binaryName timeout : String) (now : Nat) (cmdRun : Command → RunOutcome) :
    (runTest ops test binaryName timeout now cmdRun).1 =
      ⟨binaryName,
        if timeout = "" then ["-test.v", "-test.run", "^" ++ test.Name ++ "$"]
        else ["-test.v", "-test.run", "^" ++ test.Name ++ "$"] ++ ["-test.timeout", timeout]⟩ ∧
    (runTest ops test binaryName timeout now cmdRun).2 =
      ops.ParseTestRunnerOutput { test with Started := now }
        (cmdRun (runTest ops test binaryName timeout now cmdRun).1).out
        (cmdRun (runTest ops test binaryName timeout now cmdRun).1).errOut := by
  by_cases ht : timeout = ""
  · simp [runTest, ht]
  · simp [runTest, ht]

/-- C5: for every input read up to a regular end of stream, the read loop
returns; the names the feeder sends are the input split at newlines, each
line trimmed, the empty ones removed, in order; each is non-empty and neither
begins nor ends with white space; and the count the coordinator waits for is
the number of lines that are not blank. -/
theorem C5_queued_names (input : List Char) :
    ∃ testNames : List String,
      readNames ⟨input, ReadError.EOF⟩ = some (.ok testNames) ∧
      queued testNames = specNames input ∧
      (∀ name ∈ queued testNames, name ≠ "" ∧
        (∀ c, name.data.head? = some c → isSpace c = false) ∧
        (∀ c, name.data.getLast? = some c → isSpace c = false)) ∧
      testNames.length =
        ((input.splitOn '\n').filter fun l => TrimSpace ⟨l⟩ ≠ "").length := by
  obtain ⟨names, hn, hq⟩ := readLoop_eof (input.length + 1) input [] 0 (Nat.lt_succ_self _)
  refine ⟨names, by simpa [readNames] using hn, hq, ?_, ?_⟩
  · intro name hname
    rw [hq, specNames, List.mem_filter, List.mem_map] at hname
    obtain ⟨⟨l, -, rfl⟩, hne⟩ := hname
    have hne2 : TrimSpace ⟨l⟩ ≠ "" := by simpa using hne
    have hne3 : trimChars l ≠ [] := fun h0 => hne2 ((string_eq_empty _).mpr h0)
    exact ⟨hne2, trimChars_ends l hne3⟩
  · have hlen := congrArg List.length hq
    rw [queued, List.length_map, specNames, List.filter_map, List.length_map] at hlen
    rw [hlen]
    rfl

/-- C6: in every reachable state in which a worker is about to run a test,
whatever the subprocess leaves behind (its two captured texts and any error
value), `runTest` returns the test parsed from exactly those two texts, and
the worker goes on: its message is handed to the coordinator, which prints
it, and then its completion, which is counted once, after which the worker
waits for the next name. -/
theorem C6_errors_absorbed {R : Type} (cfg : Config R) (os : List Obs) (s : State R)
    (h : Reachable cfg os s) (w : Nat) (name : String) (test : TeamCityTest R)
    (hw : s.workers[w]? = some (.running name test)) (now : Nat)
    (cmdRun : Command → RunOutcome) (out errOut : String) (err : Option String)
    (hr : cmdRun (runTest cfg.ops test cfg.binaryName cfg.timeout now cmdRun).1
      = ⟨out, errOut, err⟩) :
    (runTest cfg.ops test cfg.binaryName cfg.timeout now cmdRun).2 =
      cfg.ops.ParseTestRunnerOutput { test with Started := now } out errOut ∧
    ∃ s1 : State R,
      run cfg s [.finish w now cmdRun, .message w, .completed w] =
        some ([.ran w name (runTest cfg.ops test cfg.binaryName cfg.timeout now cmdRun).1,
               .printed w name (cfg.ops.FormatTestOutput
                 (cfg.ops.ParseTestRunnerOutput { test with Started := now } out errOut)),
               .counted w], s1) ∧
      s1.workers[w]? = some .recv ∧
      s1.coord.resultsCount = s.coord.resultsCount + 1 ∧
      s1.coord.stdout = s.coord.stdout ++ cfg.ops.FormatTestOutput
        (cfg.ops.ParseTestRunnerOutput { test with Started := now } out errOut) := by
  have hI := inv_of_reachable cfg os s h
  have hlt := resultsCount_lt_of_held cfg os s hI w _ hw (by simp [held])
  have hex : s.coord.exited = false := by
    cases he : s.coord.exited with
    | false => rfl
    | true => have := hI.exit_count he; omega
  have hwl : w < s.workers.length := (List.getElem?_eq_some.mp hw).1
  have hparse : (runTest cfg.ops test cfg.binaryName cfg.timeout now cmdRun).2 =
      cfg.ops.ParseTestRunnerOutput { test with Started := now } out errOut := by
    have := (C4_arguments cfg.ops test cfg.binaryName cfg.timeout now cmdRun).2
    rw [hr] at this
    exact this
  refine ⟨hparse, ?_⟩
  rw [← hparse]
  have hne : (s.coord.resultsCount == cfg.testNames.length) = false := by
    simp only [beq_eq_false_iff_ne]
    omega
  refine ⟨⟨s.next,
    ((s.workers.set w (.sendMessage name
        (runTest cfg.ops test cfg.binaryName cfg.timeout now cmdRun).2)).set w
      (.sendDone name (runTest cfg.ops test cfg.binaryName cfg.timeout now cmdRun).2)).set w
      .recv,
    (s.coord.receive cfg.testNames.length (.message (cfg.ops.FormatTestOutput
      (runTest cfg.ops test cfg.binaryName cfg.timeout now cmdRun).2))).receive
      cfg.testNames.length .completed⟩, ?_, ?_, ?_, ?_⟩
  · simp [run, step, hex, hw, hwl, receive_message, hne]
  · simp [hwl]
  · simp [receive_message, receive_completed]
  · simp [receive_message, receive_completed]

/-- The worked example of C6: the first test of the two-name pool, with a
subprocess that fails. -/
theorem C6_errors_absorbed_witness :
    (Reachable demoConfig [.dequeued 0 0 "A"] demoMid ∧
      demoMid.workers[0]? = some (.running "A" ⟨"A", 0, ()⟩) ∧
      demoFail (runTest demoConfig.ops ⟨"A", 0, ()⟩ demoConfig.binaryName
        demoConfig.timeout 7 demoFail).1 = ⟨"", "", some "exit status 1"⟩) ∧
    ((runTest demoConfig.ops ⟨"A", 0, ()⟩ demoConfig.binaryName demoConfig.timeout 7
        demoFail).2 =
      demoConfig.ops.ParseTestRunnerOutput { (⟨"A", 0, ()⟩ : TeamCityTest Unit) with
        Started := 7 } "" "" ∧
    ∃ s1 : State Unit,
      run demoConfig demoMid [.finish 0 7 demoFail, .message 0, .completed 0] =
        some ([.ran 0 "A" (runTest demoConfig.ops ⟨"A", 0, ()⟩ demoConfig.binaryName
                 demoConfig.timeout 7 demoFail).1,
               .printed 0 "A" (demoConfig.ops.FormatTestOutput
                 (demoConfig.ops.ParseTestRunnerOutput
                   { (⟨"A", 0, ()⟩ : TeamCityTest Unit) with Started := 7 } "" "")),
               .counted 0], s1) ∧
      s1.workers[0]? = some .recv ∧
      s1.coord.resultsCount = demoMid.coord.resultsCount + 1 ∧
      s1.coord.stdout = demoMid.coord.stdout ++ demoConfig.ops.FormatTestOutput
        (demoConfig.ops.ParseTestRunnerOutput
          { (⟨"A", 0, ()⟩ : TeamCityTest Unit) with Started := 7 } "" "")) :=
  ⟨⟨⟨[.dequeue 0], rfl⟩, rfl, rfl⟩,
    C6_errors_absorbed demoConfig [.dequeued 0 0 "A"] demoMid ⟨[.dequeue 0], rfl⟩ 0 "A"
      ⟨"A", 0, ()⟩ rfl 7 demoFail "" "" (some "exit status 1") rfl⟩

/-- C7: in every reachable state, what the coordinator has written to
standard output is the concatenation of the messages it received, in the
order received; receiving a message appends exactly that message, and
receiving a completion writes nothing. -/
theorem C7_output_is_concatenation {R : Type} (cfg : Config R) (os : List Obs) (s : State R)
    (h : Reachable cfg os s) :
    s.coord.stdout = concat (printedTexts os) ∧
    (∀ (c : Coordinator) (message : String),
      (c.receive cfg.testNames.length (.message message)).stdout = c.stdout ++ message) ∧
    (∀ c : Coordinator, (c.receive cfg.testNames.length .completed).stdout = c.stdout) :=
  ⟨(inv_of_reachable cfg os s h).out, fun _ _ => rfl, fun _ => rfl⟩

/-- The worked example of C7: the full schedule of the two-name pool. -/
theorem C7_output_is_concatenation_witness :
    Reachable demoConfig demoObs demoFinal ∧
    (demoFinal.coord.stdout = concat (printedTexts demoObs) ∧
    (∀ (c : Coordinator) (message : String),
      (c.receive demoConfig.testNames.length (.message message)).stdout
        = c.stdout ++ message) ∧
    (∀ c : Coordinator,
      (c.receive demoConfig.testNames.length .completed).stdout = c.stdout)) :=
  ⟨⟨demoSchedule, rfl⟩,
    C7_output_is_concatenation demoConfig demoObs demoFinal ⟨demoSchedule, rfl⟩⟩

/-- C8: with an empty `-test` path `main` exits with status 1 after writing
the usage text to standard error, and with a path that `os.Stat` does not
find it exits with status 1 after writing a diagnostic that names the path;
in both cases no `ReadString` call was made and no pool is made, whatever
standard input holds.  With a path that is not empty and is found, `main`
goes on to read standard input. -/
theorem C8_binary_checks {R : Type} (ops : TestOps R) (stat : String → Bool) (flags : Flags)
    (stdin : Stdin) :
    (flags.testBinary = "" →
      poolConfig ops stat flags stdin = some (.error ⟨1, usage, 0⟩)) ∧
    (flags.testBinary ≠ "" → stat flags.testBinary = false →
      poolConfig ops stat flags stdin =
        some (.error ⟨1, "Cannot find binary: " ++ flags.testBinary ++ "\n", 0⟩)) ∧
    (flags.testBinary ≠ "" → stat flags.testBinary = true →
      startup stat flags stdin = readNames stdin) := by
  refine ⟨?_, ?_, ?_⟩
  · intro h
    simp [poolConfig, startup, h]
  · intro h1 h2
    simp [poolConfig, startup, h1, h2]
  · intro h1 h2
    simp [startup, h1, h2]

/-- The worked example of C8: an empty path, a path that is not found, and a
path that is found. -/
theorem C8_binary_checks_witness :
    poolConfig demoOps (fun _ => true) ⟨"", 1, ""⟩ ⟨"A\n".data, .EOF⟩
      = some (.error ⟨1, usage, 0⟩) ∧
    poolConfig demoOps (fun _ => false) ⟨"bin", 1, ""⟩ ⟨"A\n".data, .EOF⟩
      = some (.error ⟨1, "Cannot find binary: bin\n", 0⟩) ∧
    startup (fun _ => true) ⟨"bin", 1, ""⟩ ⟨"A\n".data, .EOF⟩
      = readNames ⟨"A\n".data, .EOF⟩ :=
  ⟨(C8_binary_checks demoOps (fun _ => true) ⟨"", 1, ""⟩ ⟨"A\n".data, .EOF⟩).1 rfl,
    (C8_binary_checks demoOps (fun _ => false) ⟨"bin", 1, ""⟩ ⟨"A\n".data, .EOF⟩).2.1
      (by decide) rfl,
    (C8_binary_checks demoOps (fun _ => true) ⟨"bin", 1, ""⟩ ⟨"A\n".data, .EOF⟩).2.2
      (by decide) rfl⟩

/-- C9: once the `-test` path has passed its checks, a read of standard
input that fails with an error other than end of stream makes `main` exit with
status 1 after writing the error to standard error, whatever was read before,
and no pool is made; a regular end of stream ends the read loop with the
names read, and a last line without a newline that is not blank is kept as
the last of them. -/
theorem C9_read_errors {R : Type} (ops : TestOps R) (stat : String → Bool) (flags : Flags)
    (hb : flags.testBinary ≠ "") (hs : stat flags.testBinary = true) :
    (∀ (input : List Char) (failure : ReadError), failure ≠ ReadError.EOF →
      ∃ reads : Nat, poolConfig ops stat flags ⟨input, failure⟩ =
        some (.error ⟨1, "error reading stdin: " ++ failure.Error, reads⟩)) ∧
    (∀ input : List Char, ∃ testNames : List String,
      startup stat flags ⟨input, ReadError.EOF⟩ = some (.ok testNames)) ∧
    (∀ (lines : List (List Char)) (last : List Char),
      (∀ l ∈ lines, '\n' ∉ l) → '\n' ∉ last → TrimSpace ⟨last⟩ ≠ "" →
      ∃ names : List String,
        startup stat flags ⟨unlines lines ++ last, ReadError.EOF⟩ =
          some (.ok (names ++ [⟨last⟩]))) := by
  refine ⟨?_, ?_, ?_⟩
  · intro input failure hne
    obtain ⟨n, hn⟩ := readLoop_error failure hne (input.length + 1) input [] 0
      (Nat.lt_succ_self _)
    exact ⟨n, by simp [poolConfig, startup, hb, hs, readNames, hn]⟩
  · intro input
    obtain ⟨names, hn, -⟩ := readLoop_eof (input.length + 1) input [] 0 (Nat.lt_succ_self _)
    exact ⟨names, by simpa [startup, hb, hs, readNames] using hn⟩
  · intro lines last hl hlast hkeep
    obtain ⟨names, hn⟩ := readLoop_last last hlast hkeep lines
      ((unlines lines ++ last).length + 1) [] 0 hl (Nat.lt_succ_self _)
    exact ⟨names, by simpa [startup, hb, hs, readNames] using hn⟩

/-- The worked example of C9: a path that is found. -/
theorem C9_read_errors_witness :
    ((⟨"bin", 1, ""⟩ : Flags).testBinary ≠ "" ∧
      (fun _ : String => true) (⟨"bin", 1, ""⟩ : Flags).testBinary = true) ∧
    ((∀ (input : List Char) (failure : ReadError), failure ≠ ReadError.EOF →
      ∃ reads : Nat, poolConfig demoOps (fun _ => true) ⟨"bin", 1, ""⟩ ⟨input, failure⟩ =
        some (.error ⟨1, "error reading stdin: " ++ failure.Error, reads⟩)) ∧
    (∀ input : List Char, ∃ testNames : List String,
      startup (fun _ => true) ⟨"bin", 1, ""⟩ ⟨input, ReadError.EOF⟩ = some (.ok testNames)) ∧
    (∀ (lines : List (List Char)) (last : List Char),
      (∀ l ∈ lines, '\n' ∉ l) → '\n' ∉ last → TrimSpace ⟨last⟩ ≠ "" →
      ∃ names : List String,
        startup (fun _ => true) ⟨"bin", 1, ""⟩ ⟨unlines lines ++ last, ReadError.EOF⟩ =
          some (.ok (names ++ [⟨last⟩])))) :=
  ⟨⟨by decide, rfl⟩, C9_read_errors demoOps (fun _ => true) ⟨"bin", 1, ""⟩ (by decide) rfl⟩

end TeamcityGoTest
